import Mathlib

/-!
# Verification of the loopy structural-hashing / memoization subsystem

Shallow embedding of `src/loopy/tools.py`:

* `Tree` (persistent rooted tree over two persistent maps),
* `memoize_on_disk` (on-disk memoization wrapper),
* `LoopyEqKeyBuilder` (equality/hash key builder),
* `LazilyUnpicklingDict` / `LazilyUnpicklingList` (+ the variant with
  equality and persistent-hash keys),
* `Optional`.

Python persistent maps (`pyrsistent.PMap`) are embedded as functions
`T → Option α` together with pointwise `set` / `discard` updates; Python
`frozenset` is embedded as `Finset`; raising code returns `Except`.
-/

namespace LoopyTools

/-- Pointwise update of a persistent map: `m.set k v`. -/
def pset {T : Type u} {α : Type v} [DecidableEq T]
    (m : T → Option α) (k : T) (v : α) : T → Option α :=
  fun x => if x = k then some v else m x

/-- Pointwise removal from a persistent map: `m.discard k`. -/
def pdiscard {T : Type u} {α : Type v} [DecidableEq T]
    (m : T → Option α) (k : T) : T → Option α :=
  fun x => if x = k then none else m x

@[simp] theorem pset_same {T : Type u} {α : Type v} [DecidableEq T]
    (m : T → Option α) (k : T) (v : α) : pset m k v k = some v := by
  simp [pset]

theorem pset_other {T : Type u} {α : Type v} [DecidableEq T]
    (m : T → Option α) (k : T) (v : α) {x : T} (h : x ≠ k) :
    pset m k v x = m x := by
  simp [pset, h]

@[simp] theorem pdiscard_same {T : Type u} {α : Type v} [DecidableEq T]
    (m : T → Option α) (k : T) : pdiscard m k k = none := by
  simp [pdiscard]

theorem pdiscard_other {T : Type u} {α : Type v} [DecidableEq T]
    (m : T → Option α) (k : T) {x : T} (h : x ≠ k) :
    pdiscard m k x = m x := by
  simp [pdiscard, h]

/- ## The immutable tree (`loopy.tools.Tree`)

`Tree` stores `_parent_to_children : PMap[T, FrozenSet[T]]` and
`_child_to_parent : PMap[T, Optional[T]]`.  A node is a key of
`_child_to_parent`; its stored value is `some p` for a parent `p` and
`none` for the root. -/

structure Tree (T : Type u) [DecidableEq T] where
  parentToChildren : T → Option (Finset T)
  childToParent : T → Option (Option T)

namespace Tree

variable {T : Type u} [DecidableEq T]

/-- `Tree.from_root`. -/
def from_root (root : T) : Tree T :=
  ⟨pset (fun _ => none) root ∅, pset (fun _ => none) root none⟩

/-- `Tree.is_a_node`: membership in `_child_to_parent`. -/
def is_a_node (t : Tree T) (node : T) : Bool :=
  (t.childToParent node).isSome

/-- `node in tree and tree.parent(node) is None`.  (`Tree.is_root` raises for
a non-node; callers below only reach it after the node check.) -/
def is_root (t : Tree T) (node : T) : Bool :=
  match t.childToParent node with
  | some none => true
  | _ => false

/-- `Tree.add_node`: raises if `node` is already present; then reads
`_parent_to_children[parent]` directly (a missing key raises `KeyError`). -/
def add_node (t : Tree T) (node parent : T) : Except String (Tree T) :=
  if t.is_a_node node then .error "already present in tree"
  else
    match t.parentToChildren parent with
    | none => .error "KeyError"
    | some siblings =>
        .ok ⟨pset (pset t.parentToChildren parent (siblings ∪ {node})) node ∅,
             pset t.childToParent node (some parent)⟩

/-- `Tree.rename_node`.  The Python loop `for child in children` updates the
parent pointer of each (distinct) child; since the children are distinct keys
the iteration order is immaterial and the loop is embedded as one pointwise
update over the set `ch`. -/
def rename_node (t : Tree T) (node new_id : T) : Except String (Tree T) :=
  if ¬ t.is_a_node node then .error "not present in tree"
  else if t.is_a_node new_id then .error "cannot rename, already a part of the tree"
  else
    match t.childToParent node with
    | none => .error "KeyError"
    | some pv =>
      match t.parentToChildren node with
      | none => .error "KeyError"
      | some ch =>
        let c2p : T → Option (Option T) :=
          fun x => if x ∈ ch then some (some new_id)
                   else pset (pdiscard t.childToParent node) new_id pv x
        let p2c := pset (pdiscard t.parentToChildren node) new_id ch
        match pv with
        | none => .ok ⟨p2c, c2p⟩
        | some par =>
          if ¬ t.is_a_node par then .error "ValueError"
          else
            match t.parentToChildren par with
            | none => .error "KeyError"
            | some pch =>
              .ok ⟨pset (pdiscard p2c par) par ((pch \ {node}) ∪ {new_id}), c2p⟩

/-- `Tree.move_node`.  The first Python statement evaluates
`self.is_root(node)` (which itself raises when `node` is not a node), the
move-to-`None` case fails the `is_a_node(new_parent)` check since the `None`
sentinel is never a key of `_child_to_parent`. -/
def move_node (t : Tree T) (node : T) (new_parent : Option T) :
    Except String (Tree T) :=
  if ¬ t.is_a_node node then .error "not in tree"
  else if t.is_root node && new_parent.isSome then .error "Moving root not allowed."
  else
    match new_parent with
    | none => .error "Cannot move, not in tree"
    | some np =>
      if ¬ t.is_a_node np then .error "Cannot move, not in tree"
      else
        match t.childToParent node with
        | none => .error "KeyError"
        | some none => .error "ValueError"
        | some (some par) =>
          if ¬ t.is_a_node par then .error "ValueError"
          else
            match t.parentToChildren par with
            | none => .error "KeyError"
            | some siblings =>
              match t.parentToChildren np with
              | none => .error "KeyError"
              | some npch =>
                .ok ⟨pset (pset t.parentToChildren par (siblings \ {node}))
                          np (npch ∪ {node}),
                     pset t.childToParent node (some np)⟩

/-- The tree invariant exactly as the specification states it: exactly one
node with no parent (the root), and for nodes `p`, `c` the consistency
`c ∈ children(p) ↔ parent(c) = p`.  ("Every non-root node has exactly one
parent" is automatic here: `childToParent` maps each node to one value.) -/
def treeInv (t : Tree T) : Prop :=
  (∃! r, t.childToParent r = some none) ∧
  (∀ p c, t.is_a_node p → t.is_a_node c →
    ((∃ s, t.parentToChildren p = some s ∧ c ∈ s) ↔
      t.childToParent c = some (some p)))

/-- The strengthened (amended) invariant: exactly one root; the two maps are
defined on exactly the same keys; and every member of any stored children set
is a node whose recorded parent is that key — with the converse.  This
implies `treeInv` and is what the three mutators actually preserve. -/
def treeWF (t : Tree T) : Prop :=
  (∃! r, t.childToParent r = some none) ∧
  (∀ x, (t.parentToChildren x).isSome ↔ (t.childToParent x).isSome) ∧
  (∀ p s, t.parentToChildren p = some s →
    ∀ c, c ∈ s → t.childToParent c = some (some p)) ∧
  (∀ c p, t.childToParent c = some (some p) →
    ∃ s, t.parentToChildren p = some s ∧ c ∈ s)

/-- No node is recorded as its own parent.  Trees built through the public
constructors satisfy this, but `move_node x x` destroys it. -/
def noSelfParent (t : Tree T) : Prop :=
  ∀ x, t.childToParent x ≠ some (some x)

theorem treeWF_implies_treeInv (t : Tree T) (h : treeWF t) : treeInv t := by
  obtain ⟨hroot, _hkeys, hmem, hpar⟩ := h
  refine ⟨hroot, ?_⟩
  intro p c _hp _hc
  constructor
  · rintro ⟨s, hs, hcs⟩
    exact hmem p s hs c hcs
  · intro hc
    exact hpar c p hc

theorem not_is_a_node_iff {t : Tree T} {n : T} :
    ¬ t.is_a_node n = true ↔ t.childToParent n = none := by
  simp [is_a_node, Option.not_isSome_iff_eq_none]

theorem add_node_wf (t : Tree T) (h : treeWF t) (n p : T) (t' : Tree T)
    (he : t.add_node n p = .ok t') : treeWF t' := by
  obtain ⟨⟨r, hr, hru⟩, hkeys, hmem, hpar⟩ := h
  unfold add_node at he
  by_cases hn : t.is_a_node n
  · simp [hn] at he
  · rw [if_neg hn] at he
    rw [not_is_a_node_iff] at hn
    cases hp : t.parentToChildren p with
    | none => rw [hp] at he; exact absurd he (by simp)
    | some siblings =>
      rw [hp] at he
      have hpn : t.parentToChildren n = none := by
        by_contra hcon
        have := (hkeys n).mp (Option.isSome_iff_ne_none.mpr (by
          intro hx; exact hcon hx))
        rw [hn] at this; simp at this
      have hcp : (t.childToParent p).isSome := (hkeys p).mp (by rw [hp]; rfl)
      have hnp : n ≠ p := by
        intro hx
        rw [← hx, hn] at hcp
        simp at hcp
      have hpn' : p ≠ n := Ne.symm hnp
      have hnsib : n ∉ siblings := by
        intro hx
        have hcontra := hmem p siblings hp n hx
        rw [hn] at hcontra
        exact Option.noConfusion hcontra
      injection he with he'
      subst he'
      have hrn : r ≠ n := by
        intro hx; rw [hx, hn] at hr; exact Option.noConfusion hr
      refine ⟨⟨r, ?_, ?_⟩, ?_, ?_, ?_⟩
      · -- the old root is still the unique root
        dsimp only
        simpa [pset, hrn] using hr
      · intro y hy
        dsimp only at hy
        by_cases hyn : y = n
        · subst hyn; simp [pset] at hy
        · rw [pset_other _ _ _ hyn] at hy; exact hru y hy
      · -- the two maps keep identical key sets
        intro x
        dsimp only
        by_cases hxn : x = n
        · subst hxn; simp [pset]
        · by_cases hxp : x = p
          · subst hxp
            simp [pset, hpn', hcp]
          · simp only [pset, if_neg hxn, if_neg hxp]
            exact hkeys x
      · -- members of stored children sets are nodes with that parent
        intro q s hq c hc
        dsimp only at hq ⊢
        by_cases hqn : q = n
        · subst hqn
          rw [pset_same] at hq
          injection hq with hq
          subst hq
          simp at hc
        · rw [pset_other _ _ _ hqn] at hq
          by_cases hqp : q = p
          · rw [hqp] at hq ⊢
            rw [pset_same] at hq
            injection hq with hq
            subst hq
            rcases Finset.mem_union.mp hc with hcs | hcn
            · have hcn' : c ≠ n := fun hx => hnsib (hx ▸ hcs)
              rw [pset_other _ _ _ hcn']
              exact hmem p siblings hp c hcs
            · rw [Finset.mem_singleton] at hcn
              rw [hcn]
              exact pset_same _ _ _
          · rw [pset_other _ _ _ hqp] at hq
            have hcc := hmem q s hq c hc
            have hcn : c ≠ n := by
              intro hx; rw [hx, hn] at hcc; exact Option.noConfusion hcc
            rw [pset_other _ _ _ hcn]
            exact hcc
      · -- every recorded parent pointer is mirrored by a children set
        intro c q hc
        dsimp only at hc ⊢
        by_cases hcn : c = n
        · rw [hcn] at hc ⊢
          rw [pset_same] at hc
          injection hc with hc
          injection hc with hc
          refine ⟨siblings ∪ {n}, ?_, by simp⟩
          rw [← hc, pset_other _ _ _ hpn', pset_same]
        · rw [pset_other _ _ _ hcn] at hc
          obtain ⟨s, hs, hcs⟩ := hpar c q hc
          have hqn : q ≠ n := by
            intro hx; rw [hx, hpn] at hs; exact Option.noConfusion hs
          by_cases hqp : q = p
          · rw [hqp] at hs ⊢
            rw [hp] at hs
            injection hs with hs
            subst hs
            exact ⟨siblings ∪ {n},
              by rw [pset_other _ _ _ hpn', pset_same],
              Finset.mem_union_left _ hcs⟩
          · exact ⟨s,
              by rw [pset_other _ _ _ hqn, pset_other _ _ _ hqp]; exact hs,
              hcs⟩

theorem add_node_noself (t : Tree T) (hwf : treeWF t) (hns : noSelfParent t)
    (n p : T) (t' : Tree T) (he : t.add_node n p = .ok t') : noSelfParent t' := by
  obtain ⟨_, hkeys, _, _⟩ := hwf
  unfold add_node at he
  by_cases hn : t.is_a_node n
  · simp [hn] at he
  · rw [if_neg hn] at he
    rw [not_is_a_node_iff] at hn
    cases hp : t.parentToChildren p with
    | none => rw [hp] at he; exact absurd he (by simp)
    | some siblings =>
      rw [hp] at he
      have hcp : (t.childToParent p).isSome := (hkeys p).mp (by rw [hp]; rfl)
      have hnp : n ≠ p := by
        intro hx
        rw [← hx, hn] at hcp
        simp at hcp
      injection he with he'
      subst he'
      intro x
      dsimp only
      by_cases hxn : x = n
      · subst hxn
        rw [pset_same]
        intro hx
        injection hx with hx
        injection hx with hx
        exact hnp hx.symm
      · rw [pset_other _ _ _ hxn]
        exact hns x

theorem rename_node_wf (t : Tree T) (hwf : treeWF t) (hns : noSelfParent t)
    (nd ni : T) (t' : Tree T) (he : t.rename_node nd ni = .ok t') :
    treeWF t' ∧ noSelfParent t' := by
  obtain ⟨⟨r, hr, hru⟩, hkeys, hmem, hpar⟩ := hwf
  unfold rename_node at he
  split at he
  · exact Except.noConfusion he
  · split at he
    · exact Except.noConfusion he
    · rename_i hnn hni'
      split at he
      · exact Except.noConfusion he
      · rename_i pv hnd
        split at he
        · exact Except.noConfusion he
        · rename_i ch hch
          -- facts shared by both parent cases
          have hniN : t.childToParent ni = none := not_is_a_node_iff.mp hni'
          have hchm : ∀ c ∈ ch, t.childToParent c = some (some nd) :=
            hmem nd ch hch
          have hnich : ni ∉ ch := by
            intro hx
            have hcon := hchm ni hx
            rw [hniN] at hcon
            exact Option.noConfusion hcon
          have hndch : nd ∉ ch := by
            intro hx
            exact hns nd (hchm nd hx)
          have hpni : t.parentToChildren ni = none := by
            by_contra hcon
            have hso := (hkeys ni).mp (Option.isSome_iff_ne_none.mpr hcon)
            rw [hniN] at hso
            simp at hso
          cases pv with
          | none =>
            -- renaming the root
            simp only [] at he
            injection he with he'
            subst he'
            have hndni : nd ≠ ni := by
              intro hx
              rw [hx, hniN] at hnd
              exact Option.noConfusion hnd
            have hrnd : nd = r := hru nd hnd
            refine ⟨⟨⟨ni, ?_, ?_⟩, ?_, ?_, ?_⟩, ?_⟩
            · dsimp only
              rw [if_neg hnich, pset_same]
            · intro y hy
              dsimp only at hy
              by_cases hych : y ∈ ch
              · rw [if_pos hych] at hy
                exact Option.noConfusion (Option.some.inj hy)
              · rw [if_neg hych] at hy
                by_cases hyni : y = ni
                · exact hyni
                · rw [pset_other _ _ _ hyni] at hy
                  by_cases hynd : y = nd
                  · rw [hynd, pdiscard_same] at hy
                    exact Option.noConfusion hy
                  · rw [pdiscard_other _ _ hynd] at hy
                    exact absurd (hrnd ▸ hru y hy) hynd
            · intro x
              dsimp only
              by_cases hxch : x ∈ ch
              · have hxni : x ≠ ni := fun hx => hnich (hx ▸ hxch)
                have hxnd : x ≠ nd := fun hx => hndch (hx ▸ hxch)
                rw [if_pos hxch, pset_other _ _ _ hxni, pdiscard_other _ _ hxnd]
                have hxs : (t.childToParent x).isSome := by
                  rw [hchm x hxch]; rfl
                simp [(hkeys x).mpr hxs]
              · rw [if_neg hxch]
                by_cases hxni : x = ni
                · subst hxni
                  rw [pset_same, pset_same]
                  simp
                · rw [pset_other _ _ _ hxni, pset_other _ _ _ hxni]
                  by_cases hxnd : x = nd
                  · subst hxnd
                    rw [pdiscard_same, pdiscard_same]
                    simp
                  · rw [pdiscard_other _ _ hxnd, pdiscard_other _ _ hxnd]
                    exact hkeys x
            · intro q s hq c hc
              dsimp only at hq ⊢
              by_cases hqni : q = ni
              · subst hqni
                rw [pset_same] at hq
                injection hq with hq
                subst hq
                rw [if_pos hc]
              · rw [pset_other _ _ _ hqni] at hq
                by_cases hqnd : q = nd
                · rw [hqnd, pdiscard_same] at hq
                  exact Option.noConfusion hq
                · rw [pdiscard_other _ _ hqnd] at hq
                  have hcq := hmem q s hq c hc
                  have hcch : c ∉ ch := by
                    intro hx
                    have h1 := hchm c hx
                    rw [hcq] at h1
                    exact hqnd (Option.some.inj (Option.some.inj h1))
                  have hcni : c ≠ ni := by
                    intro hx
                    rw [hx, hniN] at hcq
                    exact Option.noConfusion hcq
                  have hcnd : c ≠ nd := by
                    intro hx
                    rw [hx, hnd] at hcq
                    exact Option.noConfusion (Option.some.inj hcq)
                  rw [if_neg hcch, pset_other _ _ _ hcni, pdiscard_other _ _ hcnd]
                  exact hcq
            · intro c q hc
              dsimp only at hc ⊢
              by_cases hcch : c ∈ ch
              · rw [if_pos hcch] at hc
                injection hc with hc
                injection hc with hc
                subst hc
                exact ⟨ch, by rw [pset_same], hcch⟩
              · rw [if_neg hcch] at hc
                by_cases hcni : c = ni
                · subst hcni
                  rw [pset_same] at hc
                  exact Option.noConfusion (Option.some.inj hc)
                · rw [pset_other _ _ _ hcni] at hc
                  by_cases hcnd : c = nd
                  · rw [hcnd, pdiscard_same] at hc
                    exact Option.noConfusion hc
                  · rw [pdiscard_other _ _ hcnd] at hc
                    obtain ⟨s, hs, hcs⟩ := hpar c q hc
                    have hqni : q ≠ ni := by
                      intro hx
                      rw [hx, hpni] at hs
                      exact Option.noConfusion hs
                    have hqnd : q ≠ nd := by
                      intro hx
                      rw [hx, hch] at hs
                      injection hs with hs
                      exact hcch (hs ▸ hcs)
                    exact ⟨s, by
                      rw [pset_other _ _ _ hqni, pdiscard_other _ _ hqnd]
                      exact hs, hcs⟩
            · intro x
              dsimp only
              by_cases hxch : x ∈ ch
              · rw [if_pos hxch]
                intro hx
                exact hnich ((Option.some.inj (Option.some.inj hx)) ▸ hxch)
              · rw [if_neg hxch]
                by_cases hxni : x = ni
                · subst hxni
                  rw [pset_same]
                  intro hx
                  exact Option.noConfusion (Option.some.inj hx)
                · rw [pset_other _ _ _ hxni]
                  by_cases hxnd : x = nd
                  · rw [hxnd, pdiscard_same]
                    exact fun hx => Option.noConfusion hx
                  · rw [pdiscard_other _ _ hxnd]
                    exact hns x
          | some par =>
            dsimp only [] at he
            by_cases hppb : t.is_a_node par
            swap
            · rw [if_pos hppb] at he
              exact Except.noConfusion he
            · rw [if_neg (not_not_intro hppb)] at he
              cases hpch : t.parentToChildren par with
              | none =>
                rw [hpch] at he
                exact Except.noConfusion he
              | some pch =>
                rw [hpch] at he
                injection he with he'
                subst he'
                have hpp : (t.childToParent par).isSome := by
                  simpa [is_a_node] using hppb
                have hndni : nd ≠ ni := by
                  intro hx
                  rw [hx, hniN] at hnd
                  exact Option.noConfusion hnd
                have hparnd : par ≠ nd := by
                  intro hx
                  exact hns nd (hx ▸ hnd)
                have hparni : par ≠ ni := by
                  intro hx
                  rw [← hx] at hniN
                  rw [hniN] at hpp
                  simp at hpp
                have hpchm : ∀ c ∈ pch, t.childToParent c = some (some par) :=
                  hmem par pch hpch
                have hndpch : nd ∈ pch := by
                  obtain ⟨s, hs, hcs⟩ := hpar nd par hnd
                  rw [hpch] at hs
                  injection hs with hs
                  exact hs ▸ hcs
                have hrnd : r ≠ nd := by
                  intro hx
                  rw [hx, hnd] at hr
                  exact Option.noConfusion (Option.some.inj hr)
                have hrch : r ∉ ch := by
                  intro hx
                  have h1 := hchm r hx
                  rw [hr] at h1
                  exact Option.noConfusion (Option.some.inj h1)
                have hrni : r ≠ ni := by
                  intro hx
                  rw [hx, hniN] at hr
                  exact Option.noConfusion hr
                refine ⟨⟨⟨r, ?_, ?_⟩, ?_, ?_, ?_⟩, ?_⟩
                · dsimp only
                  rw [if_neg hrch, pset_other _ _ _ hrni, pdiscard_other _ _ hrnd]
                  exact hr
                · intro y hy
                  dsimp only at hy
                  by_cases hych : y ∈ ch
                  · rw [if_pos hych] at hy
                    exact Option.noConfusion (Option.some.inj hy)
                  · rw [if_neg hych] at hy
                    by_cases hyni : y = ni
                    · rw [hyni, pset_same] at hy
                      exact Option.noConfusion (Option.some.inj hy)
                    · rw [pset_other _ _ _ hyni] at hy
                      by_cases hynd : y = nd
                      · rw [hynd, pdiscard_same] at hy
                        exact Option.noConfusion hy
                      · rw [pdiscard_other _ _ hynd] at hy
                        exact hru y hy
                · intro x
                  dsimp only
                  by_cases hxpar : x = par
                  · rw [hxpar, pset_same]
                    simp only [Option.isSome_some, true_iff]
                    by_cases hxch : par ∈ ch
                    · rw [if_pos hxch]; rfl
                    · rw [if_neg hxch, pset_other _ _ _ hparni,
                        pdiscard_other _ _ hparnd]
                      exact hpp
                  · rw [pset_other _ _ _ hxpar, pdiscard_other _ _ hxpar]
                    by_cases hxch : x ∈ ch
                    · have hxni : x ≠ ni := fun hx => hnich (hx ▸ hxch)
                      have hxnd : x ≠ nd := fun hx => hndch (hx ▸ hxch)
                      rw [if_pos hxch, pset_other _ _ _ hxni,
                        pdiscard_other _ _ hxnd]
                      have hxs : (t.childToParent x).isSome := by
                        rw [hchm x hxch]; rfl
                      simp [(hkeys x).mpr hxs]
                    · rw [if_neg hxch]
                      by_cases hxni : x = ni
                      · subst hxni
                        rw [pset_same, pset_same]
                        simp
                      · rw [pset_other _ _ _ hxni, pset_other _ _ _ hxni]
                        by_cases hxnd : x = nd
                        · subst hxnd
                          rw [pdiscard_same, pdiscard_same]
                          simp
                        · rw [pdiscard_other _ _ hxnd, pdiscard_other _ _ hxnd]
                          exact hkeys x
                · intro q s hq c hc
                  dsimp only at hq ⊢
                  by_cases hqpar : q = par
                  · subst hqpar
                    rw [pset_same] at hq
                    injection hq with hq
                    subst hq
                    rcases Finset.mem_union.mp hc with hcp | hcni
                    · obtain ⟨hcpch, hcnd⟩ := Finset.mem_sdiff.mp hcp
                      rw [Finset.mem_singleton] at hcnd
                      have hcq := hpchm c hcpch
                      have hcch : c ∉ ch := by
                        intro hx
                        have h1 := hchm c hx
                        rw [hcq] at h1
                        exact hparnd (Option.some.inj (Option.some.inj h1))
                      have hcni : c ≠ ni := by
                        intro hx
                        rw [hx, hniN] at hcq
                        exact Option.noConfusion hcq
                      rw [if_neg hcch, pset_other _ _ _ hcni,
                        pdiscard_other _ _ hcnd]
                      exact hcq
                    · rw [Finset.mem_singleton] at hcni
                      subst hcni
                      rw [if_neg hnich, pset_same]
                  · rw [pset_other _ _ _ hqpar, pdiscard_other _ _ hqpar] at hq
                    by_cases hqni : q = ni
                    · subst hqni
                      rw [pset_same] at hq
                      injection hq with hq
                      subst hq
                      rw [if_pos hc]
                    · rw [pset_other _ _ _ hqni] at hq
                      by_cases hqnd : q = nd
                      · rw [hqnd, pdiscard_same] at hq
                        exact Option.noConfusion hq
                      · rw [pdiscard_other _ _ hqnd] at hq
                        have hcq := hmem q s hq c hc
                        have hcch : c ∉ ch := by
                          intro hx
                          have h1 := hchm c hx
                          rw [hcq] at h1
                          exact hqnd (Option.some.inj (Option.some.inj h1))
                        have hcni : c ≠ ni := by
                          intro hx
                          rw [hx, hniN] at hcq
                          exact Option.noConfusion hcq
                        have hcnd : c ≠ nd := by
                          intro hx
                          rw [hx, hnd] at hcq
                          have h2 := Option.some.inj (Option.some.inj hcq)
                          exact hqpar h2.symm
                        rw [if_neg hcch, pset_other _ _ _ hcni,
                          pdiscard_other _ _ hcnd]
                        exact hcq
                · intro c q hc
                  dsimp only at hc ⊢
                  by_cases hcch : c ∈ ch
                  · rw [if_pos hcch] at hc
                    injection hc with hc
                    injection hc with hc
                    subst hc
                    have hnipar : ni ≠ par := Ne.symm hparni
                    exact ⟨ch, by
                      rw [pset_other _ _ _ hnipar, pdiscard_other _ _ hnipar,
                        pset_same], hcch⟩
                  · rw [if_neg hcch] at hc
                    by_cases hcni : c = ni
                    · rw [hcni, pset_same] at hc
                      injection hc with hc
                      injection hc with hc
                      refine ⟨(pch \ {nd}) ∪ {ni}, ?_, ?_⟩
                      · rw [← hc, pset_same]
                      · rw [hcni]
                        exact Finset.mem_union_right _
                          (Finset.mem_singleton_self ni)
                    · rw [pset_other _ _ _ hcni] at hc
                      by_cases hcnd : c = nd
                      · rw [hcnd, pdiscard_same] at hc
                        exact Option.noConfusion hc
                      · rw [pdiscard_other _ _ hcnd] at hc
                        obtain ⟨s, hs, hcs⟩ := hpar c q hc
                        by_cases hqpar : q = par
                        · subst hqpar
                          rw [hpch] at hs
                          injection hs with hs
                          subst hs
                          refine ⟨(pch \ {nd}) ∪ {ni}, by rw [pset_same], ?_⟩
                          exact Finset.mem_union_left _
                            (Finset.mem_sdiff.mpr
                              ⟨hcs, by rw [Finset.mem_singleton]; exact hcnd⟩)
                        · have hqni : q ≠ ni := by
                            intro hx
                            rw [hx, hpni] at hs
                            exact Option.noConfusion hs
                          have hqnd : q ≠ nd := by
                            intro hx
                            rw [hx, hch] at hs
                            injection hs with hs
                            exact hcch (hs ▸ hcs)
                          exact ⟨s, by
                            rw [pset_other _ _ _ hqpar,
                              pdiscard_other _ _ hqpar,
                              pset_other _ _ _ hqni,
                              pdiscard_other _ _ hqnd]
                            exact hs, hcs⟩
                · intro x
                  dsimp only
                  by_cases hxch : x ∈ ch
                  · rw [if_pos hxch]
                    intro hx
                    exact hnich ((Option.some.inj (Option.some.inj hx)) ▸ hxch)
                  · rw [if_neg hxch]
                    by_cases hxni : x = ni
                    · subst hxni
                      rw [pset_same]
                      intro hx
                      exact hparni (Option.some.inj (Option.some.inj hx))
                    · rw [pset_other _ _ _ hxni]
                      by_cases hxnd : x = nd
                      · rw [hxnd, pdiscard_same]
                        exact fun hx => Option.noConfusion hx
                      · rw [pdiscard_other _ _ hxnd]
                        exact hns x

theorem move_node_wf (t : Tree T) (hwf : treeWF t) (nd : T) (npArg : Option T)
    (t' : Tree T) (he : t.move_node nd npArg = .ok t') : treeWF t' := by
  obtain ⟨⟨r, hr, hru⟩, hkeys, hmem, hpar⟩ := hwf
  unfold move_node at he
  cases npArg with
  | none =>
    split at he
    · exact Except.noConfusion he
    · split at he
      · exact Except.noConfusion he
      · exact Except.noConfusion he
  | some np =>
    split at he
    · exact Except.noConfusion he
    · split at he
      · exact Except.noConfusion he
      · dsimp only [] at he
        by_cases hnpb : t.is_a_node np
        swap
        · rw [if_pos hnpb] at he
          exact Except.noConfusion he
        · rw [if_neg (not_not_intro hnpb)] at he
          split at he
          · exact Except.noConfusion he
          · exact Except.noConfusion he
          · rename_i par hnd
            by_cases hparb : t.is_a_node par
            swap
            · rw [if_pos hparb] at he
              exact Except.noConfusion he
            · rw [if_neg (not_not_intro hparb)] at he
              split at he
              · exact Except.noConfusion he
              · rename_i sib hsib
                split at he
                · exact Except.noConfusion he
                · rename_i npch hnpch
                  injection he with he'
                  subst he'
                  have hcpnp : (t.childToParent np).isSome := by
                    simpa [is_a_node] using hnpb
                  have hcppar : (t.childToParent par).isSome := by
                    simpa [is_a_node] using hparb
                  have hrnd : r ≠ nd := by
                    intro hx
                    rw [hx, hnd] at hr
                    exact Option.noConfusion (Option.some.inj hr)
                  have hndsib : nd ∈ sib := by
                    obtain ⟨s, hs, hcs⟩ := hpar nd par hnd
                    rw [hsib] at hs
                    injection hs with hs
                    exact hs ▸ hcs
                  have hsibm : ∀ c ∈ sib, t.childToParent c = some (some par) :=
                    hmem par sib hsib
                  have hnpchm : ∀ c ∈ npch,
                      t.childToParent c = some (some np) :=
                    hmem np npch hnpch
                  refine ⟨⟨r, ?_, ?_⟩, ?_, ?_, ?_⟩
                  · dsimp only
                    rw [pset_other _ _ _ hrnd]
                    exact hr
                  · intro y hy
                    dsimp only at hy
                    by_cases hynd : y = nd
                    · rw [hynd, pset_same] at hy
                      exact Option.noConfusion (Option.some.inj hy)
                    · rw [pset_other _ _ _ hynd] at hy
                      exact hru y hy
                  · intro x
                    dsimp only
                    by_cases hxnp : x = np
                    · rw [hxnp, pset_same]
                      simp only [Option.isSome_some, true_iff]
                      by_cases hxnd : np = nd
                      · rw [hxnd, pset_same]; rfl
                      · rw [pset_other _ _ _ hxnd]
                        exact hcpnp
                    · rw [pset_other _ _ _ hxnp]
                      by_cases hxpar : x = par
                      · rw [hxpar, pset_same]
                        simp only [Option.isSome_some, true_iff]
                        by_cases hxnd : par = nd
                        · rw [hxnd, pset_same]; rfl
                        · rw [pset_other _ _ _ hxnd]
                          exact hcppar
                      · rw [pset_other _ _ _ hxpar]
                        by_cases hxnd : x = nd
                        · rw [hxnd, pset_same]
                          simp only [Option.isSome_some, iff_true]
                          have h1 : (t.childToParent nd).isSome := by
                            rw [hnd]; rfl
                          exact (hkeys nd).mpr h1
                        · rw [pset_other _ _ _ hxnd]
                          exact hkeys x
                  · intro q s hq c hc
                    dsimp only at hq ⊢
                    by_cases hqnp : q = np
                    · rw [hqnp, pset_same] at hq
                      injection hq with hq
                      subst hq
                      rcases Finset.mem_union.mp hc with hcn | hcnd
                      · by_cases hcnd' : c = nd
                        · rw [hcnd', pset_same, hqnp]
                        · rw [pset_other _ _ _ hcnd', hqnp]
                          exact hnpchm c hcn
                      · rw [Finset.mem_singleton] at hcnd
                        rw [hcnd, pset_same, hqnp]
                    · rw [pset_other _ _ _ hqnp] at hq
                      by_cases hqpar : q = par
                      · rw [hqpar, pset_same] at hq
                        injection hq with hq
                        subst hq
                        obtain ⟨hcs, hcnd⟩ := Finset.mem_sdiff.mp hc
                        rw [Finset.mem_singleton] at hcnd
                        rw [pset_other _ _ _ hcnd, hqpar]
                        exact hsibm c hcs
                      · rw [pset_other _ _ _ hqpar] at hq
                        have hcq := hmem q s hq c hc
                        have hcnd : c ≠ nd := by
                          intro hx
                          rw [hx, hnd] at hcq
                          exact hqpar (Option.some.inj (Option.some.inj hcq)).symm
                        rw [pset_other _ _ _ hcnd]
                        exact hcq
                  · intro c q hc
                    dsimp only at hc ⊢
                    by_cases hcnd : c = nd
                    · rw [hcnd, pset_same] at hc
                      injection hc with hc
                      injection hc with hc
                      refine ⟨npch ∪ {nd}, ?_, ?_⟩
                      · rw [← hc, pset_same]
                      · rw [hcnd]
                        exact Finset.mem_union_right _ (Finset.mem_singleton_self nd)
                    · rw [pset_other _ _ _ hcnd] at hc
                      obtain ⟨s, hs, hcs⟩ := hpar c q hc
                      by_cases hqnp : q = np
                      · rw [hqnp, hnpch] at hs
                        injection hs with hs
                        subst hs
                        exact ⟨npch ∪ {nd}, by rw [hqnp, pset_same],
                          Finset.mem_union_left _ hcs⟩
                      · by_cases hqpar : q = par
                        · rw [hqpar, hsib] at hs
                          injection hs with hs
                          subst hs
                          refine ⟨sib \ {nd}, ?_, ?_⟩
                          · rw [pset_other _ _ _ hqnp, hqpar, pset_same]
                          · exact Finset.mem_sdiff.mpr
                              ⟨hcs, by rw [Finset.mem_singleton]; exact hcnd⟩
                        · exact ⟨s, by
                            rw [pset_other _ _ _ hqnp, pset_other _ _ _ hqpar]
                            exact hs, hcs⟩

theorem from_root_wf (r : T) :
    treeWF (from_root r) ∧ noSelfParent (from_root r) := by
  refine ⟨⟨⟨r, ?_, ?_⟩, ?_, ?_, ?_⟩, ?_⟩
  · exact pset_same (fun _ => none) r none
  · intro y hy
    by_cases hyr : y = r
    · exact hyr
    · rw [show (from_root r).childToParent y = pset (fun _ => none) r none y
          from rfl, pset_other _ _ _ hyr] at hy
      exact Option.noConfusion hy
  · intro x
    by_cases hxr : x = r
    · subst hxr
      simp [from_root, pset]
    · show (pset (fun _ => none) r (∅ : Finset T) x).isSome = true ↔ _
      rw [pset_other _ _ _ hxr,
        show (from_root r).childToParent x = pset (fun _ => none) r none x
          from rfl, pset_other _ _ _ hxr]
      exact Iff.rfl
  · intro p s hq c hc
    by_cases hpr : p = r
    · rw [show (from_root r).parentToChildren p
          = pset (fun _ => none) r (∅ : Finset T) p from rfl, hpr,
        pset_same] at hq
      injection hq with hq
      subst hq
      simp at hc
    · rw [show (from_root r).parentToChildren p
          = pset (fun _ => none) r (∅ : Finset T) p from rfl,
        pset_other _ _ _ hpr] at hq
      exact Option.noConfusion hq
  · intro c q hc
    by_cases hcr : c = r
    · rw [show (from_root r).childToParent c = pset (fun _ => none) r none c
          from rfl, hcr, pset_same] at hc
      exact Option.noConfusion (Option.some.inj hc)
    · rw [show (from_root r).childToParent c = pset (fun _ => none) r none c
          from rfl, pset_other _ _ _ hcr] at hc
      exact Option.noConfusion hc
  · intro x
    by_cases hxr : x = r
    · rw [show (from_root r).childToParent x = pset (fun _ => none) r none x
          from rfl, hxr, pset_same]
      intro hx
      exact Option.noConfusion (Option.some.inj hx)
    · rw [show (from_root r).childToParent x = pset (fun _ => none) r none x
          from rfl, pset_other _ _ _ hxr]
      exact fun hx => Option.noConfusion hx

end Tree

/-- A three-node tree over `Nat` in which node `1` is recorded as its own
parent, with the extra child `2` (this very shape is produced by
`move_node 1 1` applied to the genuine tree `0 → 1 → 2`).  It satisfies the
stated tree invariant. -/
def exTreeSelf : Tree Nat :=
  ⟨fun x => if x = 0 then some (∅ : Finset Nat)
            else if x = 1 then some ({1, 2} : Finset Nat)
            else if x = 2 then some (∅ : Finset Nat)
            else none,
   fun x => if x = 0 then some none
            else if x = 1 then some (some 1)
            else if x = 2 then some (some 1)
            else none⟩

/-- The result of renaming node `1` to `3` in `exTreeSelf` (total by
falling back to the input on the impossible error branch). -/
def exTreeRenamed : Tree Nat :=
  match exTreeSelf.rename_node 1 3 with
  | .ok u => u
  | .error _ => exTreeSelf

theorem exTreeSelf_treeInv : Tree.treeInv exTreeSelf := by
  constructor
  · refine ⟨0, rfl, ?_⟩
    intro y hy
    by_cases h0 : y = 0
    · exact h0
    · exfalso
      by_cases h1 : y = 1
      · rw [h1] at hy
        exact absurd hy (by decide)
      · by_cases h2 : y = 2
        · rw [h2] at hy
          exact absurd hy (by decide)
        · simp [exTreeSelf, h0, h1, h2] at hy
  · intro p c hp hc
    have hmemP : ∀ x : Nat, (exTreeSelf.childToParent x).isSome = true →
        x = 0 ∨ x = 1 ∨ x = 2 := by
      intro x hx
      by_cases h0 : x = 0
      · exact Or.inl h0
      · by_cases h1 : x = 1
        · exact Or.inr (Or.inl h1)
        · by_cases h2 : x = 2
          · exact Or.inr (Or.inr h2)
          · exfalso
            simp [exTreeSelf, h0, h1, h2] at hx
    rcases hmemP p hp with rfl | rfl | rfl <;>
      rcases hmemP c hc with rfl | rfl | rfl <;>
      simp [exTreeSelf]

theorem Tree.rename_node_ok_conditions {T : Type u} [DecidableEq T]
    (t : Tree T) (node new_id : T)
    (t' : Tree T) (he : t.rename_node node new_id = .ok t') :
    t.is_a_node node = true ∧ t.is_a_node new_id = false := by
  unfold rename_node at he
  split at he
  · exact Except.noConfusion he
  · split at he
    · exact Except.noConfusion he
    · rename_i h1 h2
      exact ⟨not_not.mp h1, by simpa using h2⟩

theorem Tree.move_node_ok_conditions {T : Type u} [DecidableEq T]
    (t : Tree T) (node : T)
    (npArg : Option T) (t' : Tree T) (he : t.move_node node npArg = .ok t') :
    t.is_a_node node = true ∧ t.is_root node = false ∧
    ∃ np, npArg = some np ∧ t.is_a_node np = true := by
  unfold move_node at he
  cases npArg with
  | none =>
    split at he
    · exact Except.noConfusion he
    · split at he
      · exact Except.noConfusion he
      · exact Except.noConfusion he
  | some np =>
    split at he
    · exact Except.noConfusion he
    · rename_i h1
      split at he
      · exact Except.noConfusion he
      · dsimp only [] at he
        by_cases hnpb : t.is_a_node np
        swap
        · rw [if_pos hnpb] at he
          exact Except.noConfusion he
        · refine ⟨not_not.mp h1, ?_, np, rfl, hnpb⟩
          rw [if_neg (not_not_intro hnpb)] at he
          split at he
          · exact Except.noConfusion he
          · exact Except.noConfusion he
          · rename_i par hnd
            unfold Tree.is_root
            rw [hnd]

/-- The tree obtained by `add_node 1 0` on `from_root 0` (total by falling
back to the input on the impossible error branch). -/
def exTreeAdded : Tree Nat :=
  match (Tree.from_root 0).add_node 1 0 with
  | .ok u => u
  | .error _ => Tree.from_root 0

/-- C9: `rename_node` raises whenever the new identifier already names a
node (also when the renamed node itself is absent, in which case the
not-present error fires first); `move_node` raises whenever the moved node
is the root, whenever the requested parent is a non-node, and whenever the
requested parent is the `None` sentinel (never a key of the map).  All four
operations are pure functions (`Tree` is immutable and an `Except.error`
result carries no tree), so a failing call returns no new tree and the
receiver is untouched. -/
theorem tree_rejected_operations {T : Type u} [DecidableEq T] (t : Tree T) :
    (∀ node new_id, t.is_a_node new_id = true →
      ∃ e, t.rename_node node new_id = .error e) ∧
    (∀ node np, t.is_root node = true →
      ∃ e, t.move_node node np = .error e) ∧
    (∀ node np, t.is_a_node np = false →
      ∃ e, t.move_node node (some np) = .error e) ∧
    (∀ node, ∃ e, t.move_node node none = .error e) := by
  have hmove : ∀ node npArg, (∀ t', t.move_node node npArg ≠ .ok t') →
      ∃ e, t.move_node node npArg = .error e := by
    intro node npArg hno
    cases hres : t.move_node node npArg with
    | ok u => exact absurd hres (hno u)
    | error e => exact ⟨e, rfl⟩
  refine ⟨?_, ?_, ?_, ?_⟩
  · intro node new_id hni
    cases hres : t.rename_node node new_id with
    | ok u =>
      have hcond := Tree.rename_node_ok_conditions t node new_id u hres
      rw [hni] at hcond
      exact absurd hcond.2 (by simp)
    | error e => exact ⟨e, rfl⟩
  · intro node np hroot
    refine hmove node np ?_
    intro u hres
    have hcond := Tree.move_node_ok_conditions t node np u hres
    rw [hroot] at hcond
    exact absurd hcond.2.1 (by simp)
  · intro node np hnp
    refine hmove node (some np) ?_
    intro u hres
    obtain ⟨np2, hnp2, hnp2n⟩ :=
      (Tree.move_node_ok_conditions t node (some np) u hres).2.2
    injection hnp2 with hnp2
    rw [← hnp2, hnp] at hnp2n
    exact Bool.noConfusion hnp2n
  · intro node
    refine hmove node none ?_
    intro u hres
    obtain ⟨np2, hnp2, -⟩ :=
      (Tree.move_node_ok_conditions t node none u hres).2.2
    exact Option.noConfusion hnp2

theorem tree_rejected_operations_witness :
    (∃ e, (Tree.from_root (0 : Nat)).rename_node 1 0 = .error e) ∧
    (∃ e, (Tree.from_root (0 : Nat)).move_node 0 (some 5) = .error e) ∧
    (∃ e, (Tree.from_root (0 : Nat)).move_node 0 (some 7) = .error e) ∧
    (∃ e, (Tree.from_root (0 : Nat)).move_node 0 none = .error e) :=
  ⟨(tree_rejected_operations (Tree.from_root 0)).1 1 0 (by decide),
   (tree_rejected_operations (Tree.from_root 0)).2.1 0 (some 5) (by decide),
   (tree_rejected_operations (Tree.from_root 0)).2.2.1 0 7 (by decide),
   (tree_rejected_operations (Tree.from_root 0)).2.2.2 0⟩

/-- C2 (amended): starting from a tree satisfying the strengthened
invariant — the spec's three conditions plus: the two maps are defined on
exactly the same keys, every member of a stored children set is a node whose
recorded parent is that key (`treeWF`), and no node is its own parent
(`noSelfParent`) — every successful `add_node` or `rename_node` returns a
tree satisfying the same strengthened invariant, and every successful
`move_node` returns a tree satisfying `treeWF` (but possibly not
`noSelfParent`: `move_node x x` succeeds and makes `x` its own parent).
`treeWF` implies the spec's literal invariant (`treeWF_implies_treeInv`). -/
theorem tree_mutators_preserve_invariant {T : Type u} [DecidableEq T]
    (t : Tree T) (hwf : Tree.treeWF t) (hns : Tree.noSelfParent t) :
    (∀ n p t', t.add_node n p = .ok t' →
      Tree.treeWF t' ∧ Tree.noSelfParent t') ∧
    (∀ n i t', t.rename_node n i = .ok t' →
      Tree.treeWF t' ∧ Tree.noSelfParent t') ∧
    (∀ n np t', t.move_node n np = .ok t' → Tree.treeWF t') := by
  refine ⟨?_, ?_, ?_⟩
  · intro n p t' he
    exact ⟨Tree.add_node_wf t hwf n p t' he,
      Tree.add_node_noself t hwf hns n p t' he⟩
  · intro n i t' he
    exact Tree.rename_node_wf t hwf hns n i t' he
  · intro n np t' he
    exact Tree.move_node_wf t hwf n np t' he

theorem tree_mutators_preserve_invariant_witness :
    Tree.treeWF exTreeAdded ∧ Tree.noSelfParent exTreeAdded :=
  (tree_mutators_preserve_invariant (Tree.from_root 0)
    (Tree.from_root_wf 0).1 (Tree.from_root_wf 0).2).1 1 0 exTreeAdded rfl

/-- C2 counterexample: `exTreeSelf` satisfies the tree invariant exactly as
the claim states it, yet `rename_node 1 3` succeeds and returns a tree that
violates it (node `2` sits in `children 1` while `parent 2 = 3`).  Hence the
claim is false as stated; `exTreeSelf` is itself reachable by a successful
`move_node 1 1` from a genuine three-node tree. -/
theorem tree_invariant_not_preserved_counterexample :
    Tree.treeInv exTreeSelf ∧
    exTreeSelf.rename_node 1 3 = .ok exTreeRenamed ∧
    ¬ Tree.treeInv exTreeRenamed := by
  refine ⟨exTreeSelf_treeInv, rfl, ?_⟩
  rintro ⟨-, hcons⟩
  have hp1 : exTreeRenamed.is_a_node 1 = true := by decide
  have hp2 : exTreeRenamed.is_a_node 2 = true := by decide
  have hmem2 : exTreeRenamed.parentToChildren 1
      = some ((({1, 2} : Finset Nat) \ {1}) ∪ {3}) := by decide
  have h2 := (hcons 1 2 hp1 hp2).mp
    ⟨(({1, 2} : Finset Nat) \ {1}) ∪ {3}, hmem2, by decide⟩
  have h3 : exTreeRenamed.childToParent 2 = some (some 3) := by decide
  rw [h3] at h2
  exact absurd h2 (by decide)

/- ## On-disk memoization (`loopy.tools.memoize_on_disk`)

The decorator's inner `wrapper` is embedded as one call acting on an
explicit store state `s` through an abstract store interface (the
`WriteOncePersistentDict` is an external collaborator).  The result carries
the returned value, the updated store state, and the number of executions
of the wrapped function `func` during the call; a raised exception becomes
`Except.error`. -/

/-- Outcome of the lookup `transform_cache[cache_key]`: a stored value, a
`KeyError` (the Python code catches exactly this), or any other raised
exception (for instance an unreachable store). -/
inductive LookupResult (V : Type)
  | found (v : V)
  | keyAbsent
  | storeError (e : String)
deriving DecidableEq

/-- The store operations used by the wrapper. -/
structure StoreOps (K V S : Type) where
  lookup : S → K → LookupResult V
  store_if_not_present : S → K → V → Except String S

/-- `cache_key = (func.__qualname__, func.__name__, args, kwargs)`. -/
def CacheKey (A W : Type) : Type :=
  String × String × List A × List (String × W)

instance {A W : Type} [DecidableEq A] [DecidableEq W] :
    DecidableEq (CacheKey A W) := by
  unfold CacheKey
  infer_instance

/-- The per-call bypass keyword. -/
def bypassKey : String := "_no_memoize_on_disk"

/-- `kwargs[k]` as an option (`kwargs` is an association list with unique
keys, mirroring a Python `dict`). -/
def kwLookup {W : Type} (kw : List (String × W)) (k : String) : Option W :=
  (kw.find? (fun p => decide (p.1 = k))).map (fun p => p.2)

/-- `kwargs.pop(k, ...)`: the mapping with the key removed. -/
def kwRemove {W : Type} (kw : List (String × W)) (k : String) :
    List (String × W) :=
  kw.filter (fun p => decide (p.1 ≠ k))

theorem kwRemove_eq_of_lookup_none {W : Type} (kw : List (String × W))
    (k : String) (h : kwLookup kw k = none) : kwRemove kw k = kw := by
  unfold kwLookup at h
  rw [Option.map_eq_none'] at h
  rw [List.find?_eq_none] at h
  unfold kwRemove
  rw [List.filter_eq_self]
  intro p hp
  have := h p hp
  simp only [decide_eq_true_eq] at this ⊢
  exact this

/-- The body of `memoize_on_disk`'s `wrapper`, one call.  Mirrors the
Python control flow: the short-circuit `not CACHING_ENABLED or
kwargs.pop("_no_memoize_on_disk", False)` leaves `kwargs` unpopped when
caching is disabled; otherwise the popped mapping is used both for the
cache key and for the call of `func`; only a `KeyError` from the lookup is
caught, all other exceptions propagate, as does any exception raised by
`store_if_not_present`. -/
def memoize_on_disk_wrapper {A W V S : Type}
    (M : StoreOps (CacheKey A W) V S) (cachingEnabled : Bool)
    (truthy : W → Bool) (f : List A → List (String × W) → V)
    (qualname fname : String) (args : List A) (kwargs : List (String × W))
    (s : S) : Except String (V × S × Nat) :=
  if ¬ cachingEnabled then .ok (f args kwargs, s, 1)
  else
    let bypass := match kwLookup kwargs bypassKey with
      | some w => truthy w
      | none => false
    let kwargs2 := kwRemove kwargs bypassKey
    if bypass then .ok (f args kwargs2, s, 1)
    else
      let cache_key : CacheKey A W := (qualname, fname, args, kwargs2)
      match M.lookup s cache_key with
      | .found v => .ok (v, s, 0)
      | .storeError e => .error e
      | .keyAbsent =>
        let result := f args kwargs2
        match M.store_if_not_present s cache_key result with
        | .ok s2 => .ok (result, s2, 1)
        | .error e => .error e

theorem memoize_wrapper_nobypass_eq {A W V S : Type}
    (M : StoreOps (CacheKey A W) V S) (truthy : W → Bool)
    (f : List A → List (String × W) → V) (qualname fname : String)
    (args : List A) (kwargs : List (String × W)) (s : S)
    (hbp : (match kwLookup kwargs bypassKey with
      | some w => truthy w
      | none => false) = false) :
    memoize_on_disk_wrapper M true truthy f qualname fname args kwargs s =
      match M.lookup s
        (qualname, fname, args, kwRemove kwargs bypassKey) with
      | .found v => .ok (v, s, 0)
      | .storeError e => .error e
      | .keyAbsent =>
        match M.store_if_not_present s
          (qualname, fname, args, kwRemove kwargs bypassKey)
          (f args (kwRemove kwargs bypassKey)) with
        | .ok s2 => .ok (f args (kwRemove kwargs bypassKey), s2, 1)
        | .error e => .error e := by
  unfold memoize_on_disk_wrapper
  rw [if_neg (not_not_intro rfl)]
  dsimp only
  rw [hbp, if_neg Bool.false_ne_true]

/-- Association-list lookup used by the concrete reference store. -/
def alistFind {K V : Type} [DecidableEq K] (s : List (K × V)) (k : K) :
    Option V :=
  (s.find? (fun p => decide (p.1 = k))).map (fun p => p.2)

/-- A correctly functioning write-once store: lookups report the stored
value or `KeyError`; `store_if_not_present` inserts only when the key is
absent and never raises. -/
def goodStore (A W V : Type) [DecidableEq A] [DecidableEq W] :
    StoreOps (CacheKey A W) V (List (CacheKey A W × V)) where
  lookup := fun s k =>
    match alistFind s k with
    | some v => .found v
    | none => .keyAbsent
  store_if_not_present := fun s k v =>
    match alistFind s k with
    | some _ => .ok s
    | none => .ok ((k, v) :: s)

theorem alistFind_cons_self {K V : Type} [DecidableEq K]
    (s : List (K × V)) (k : K) (v : V) :
    alistFind ((k, v) :: s) k = some v := by
  unfold alistFind
  rw [List.find?_cons_of_pos _ (by simp)]
  rfl

/-- C1: with caching enabled and no per-call bypass, calling the wrapper
twice against a correctly functioning write-once store with
structurally-equal (not necessarily identical) argument lists executes the
wrapped function at most once in total: the first call stores its result
under the cache key via `store_if_not_present` exactly when the key was
absent, and the second call returns that stored result with zero executions
and no further store mutation. -/
theorem memoize_on_disk_executes_once {A W V : Type}
    [DecidableEq A] [DecidableEq W] (truthy : W → Bool)
    (f : List A → List (String × W) → V) (qualname fname : String)
    (args1 args2 : List A) (kwargs : List (String × W))
    (s : List (CacheKey A W × V))
    (hbypass : kwLookup kwargs bypassKey = none) (hargs : args2 = args1) :
    ∃ v s1 n1,
      memoize_on_disk_wrapper (goodStore A W V) true truthy f qualname fname
        args1 kwargs s = .ok (v, s1, n1) ∧
      n1 ≤ 1 ∧
      (goodStore A W V).lookup s1 (qualname, fname, args1, kwargs) =
        .found v ∧
      memoize_on_disk_wrapper (goodStore A W V) true truthy f qualname fname
        args2 kwargs s1 = .ok (v, s1, 0) ∧
      ((goodStore A W V).lookup s (qualname, fname, args1, kwargs) =
          .keyAbsent →
        v = f args1 kwargs ∧ n1 = 1 ∧
        s1 = ((qualname, fname, args1, kwargs), v) :: s) := by
  rw [hargs]
  have hbp : (match kwLookup kwargs bypassKey with
      | some w => truthy w
      | none => false) = false := by rw [hbypass]
  have hkw : kwRemove kwargs bypassKey = kwargs :=
    kwRemove_eq_of_lookup_none kwargs bypassKey hbypass
  have heq1 := memoize_wrapper_nobypass_eq (goodStore A W V) truthy f
    qualname fname args1 kwargs s hbp
  rw [hkw] at heq1
  cases hf : alistFind s (qualname, fname, args1, kwargs) with
  | some v =>
    have hlk : (goodStore A W V).lookup s (qualname, fname, args1, kwargs)
        = .found v := by
      show (match alistFind s (qualname, fname, args1, kwargs) with
        | some v => LookupResult.found v
        | none => LookupResult.keyAbsent) = _
      rw [hf]
    rw [hlk] at heq1
    refine ⟨v, s, 0, heq1, by omega, hlk, ?_, ?_⟩
    · have heq2 := memoize_wrapper_nobypass_eq (goodStore A W V) truthy f
        qualname fname args1 kwargs s hbp
      rw [hkw, hlk] at heq2
      exact heq2
    · intro habs
      rw [hlk] at habs
      exact absurd habs (by simp)
  | none =>
    have hlk : (goodStore A W V).lookup s (qualname, fname, args1, kwargs)
        = .keyAbsent := by
      show (match alistFind s (qualname, fname, args1, kwargs) with
        | some v => LookupResult.found v
        | none => LookupResult.keyAbsent) = _
      rw [hf]
    have hst : (goodStore A W V).store_if_not_present s
        (qualname, fname, args1, kwargs) (f args1 kwargs) =
        .ok (((qualname, fname, args1, kwargs), f args1 kwargs) :: s) := by
      show (match alistFind s (qualname, fname, args1, kwargs) with
        | some _ => Except.ok s
        | none => Except.ok
            (((qualname, fname, args1, kwargs), f args1 kwargs) :: s)) = _
      rw [hf]
    rw [hlk, hst] at heq1
    have hlk1 : (goodStore A W V).lookup
        (((qualname, fname, args1, kwargs), f args1 kwargs) :: s)
        (qualname, fname, args1, kwargs) = .found (f args1 kwargs) := by
      show (match alistFind
          (((qualname, fname, args1, kwargs), f args1 kwargs) :: s)
          (qualname, fname, args1, kwargs) with
        | some v => LookupResult.found v
        | none => LookupResult.keyAbsent) = _
      rw [alistFind_cons_self]
    refine ⟨f args1 kwargs,
      ((qualname, fname, args1, kwargs), f args1 kwargs) :: s, 1, heq1,
      le_refl 1, hlk1, ?_, fun _ => ⟨rfl, rfl, rfl⟩⟩
    have heq2 := memoize_wrapper_nobypass_eq (goodStore A W V) truthy f
      qualname fname args1 kwargs
      (((qualname, fname, args1, kwargs), f args1 kwargs) :: s) hbp
    rw [hkw, hlk1] at heq2
    exact heq2

theorem memoize_on_disk_executes_once_witness :
    ∃ v s1 n1,
      memoize_on_disk_wrapper (goodStore Nat Nat Nat) true
        (fun w => decide (w ≠ 0)) (fun _ _ => 42) "q" "f" [3] [] [] =
        .ok (v, s1, n1) ∧
      n1 ≤ 1 ∧
      (goodStore Nat Nat Nat).lookup s1 ("q", "f", [3], []) = .found v ∧
      memoize_on_disk_wrapper (goodStore Nat Nat Nat) true
        (fun w => decide (w ≠ 0)) (fun _ _ => 42) "q" "f" [3] [] s1 =
        .ok (v, s1, 0) ∧
      ((goodStore Nat Nat Nat).lookup [] ("q", "f", [3], []) = .keyAbsent →
        v = 42 ∧ n1 = 1 ∧ s1 = [(("q", "f", [3], []), v)]) :=
  memoize_on_disk_executes_once (fun w => decide (w ≠ 0)) (fun _ _ => 42)
    "q" "f" [3] [3] [] [] rfl rfl

/-- C8: with the process-wide caching flag off, or with a truthy per-call
`_no_memoize_on_disk` keyword, the wrapper executes the wrapped function
directly (exactly once) and returns its result; the store state is returned
unchanged and the result is the same for every store implementation `M`, so
no store read or write takes place.  (When caching is disabled the
short-circuit skips the `pop`, so the bypass keyword — if present — is
passed through to the function; when the bypass keyword triggers, the
popped mapping is passed.) -/
theorem memoize_on_disk_bypass_no_store_interaction {A W V S : Type}
    (M : StoreOps (CacheKey A W) V S) (truthy : W → Bool)
    (f : List A → List (String × W) → V) (qualname fname : String)
    (args : List A) (kwargs : List (String × W)) (s : S) :
    (memoize_on_disk_wrapper M false truthy f qualname fname args kwargs s =
      .ok (f args kwargs, s, 1)) ∧
    ((match kwLookup kwargs bypassKey with
        | some w => truthy w
        | none => false) = true →
      memoize_on_disk_wrapper M true truthy f qualname fname args kwargs s =
        .ok (f args (kwRemove kwargs bypassKey), s, 1)) := by
  constructor
  · unfold memoize_on_disk_wrapper
    rw [if_pos (by decide)]
  · intro hbp
    unfold memoize_on_disk_wrapper
    rw [if_neg (not_not_intro rfl)]
    dsimp only
    rw [hbp, if_pos rfl]

/-- A store whose every operation raises: lookups fail with something other
than `KeyError` and writes raise as well. -/
def badStore (A W V : Type) : StoreOps (CacheKey A W) V Unit where
  lookup := fun _ _ => .storeError "disk unreachable"
  store_if_not_present := fun _ _ _ => .error "disk unreachable"

theorem memoize_on_disk_bypass_witness :
    (memoize_on_disk_wrapper (badStore Nat Nat Nat) false
      (fun w => decide (w ≠ 0)) (fun _ _ => 42) "q" "f" [] [(bypassKey, 1)]
      () = .ok (42, (), 1)) ∧
    (memoize_on_disk_wrapper (badStore Nat Nat Nat) true
      (fun w => decide (w ≠ 0)) (fun _ _ => 42) "q" "f" [] [(bypassKey, 1)]
      () = .ok (42, (), 1)) :=
  ⟨(memoize_on_disk_bypass_no_store_interaction (badStore Nat Nat Nat)
      (fun w => decide (w ≠ 0)) (fun _ _ => 42) "q" "f" [] [(bypassKey, 1)]
      ()).1,
   (memoize_on_disk_bypass_no_store_interaction (badStore Nat Nat Nat)
      (fun w => decide (w ≠ 0)) (fun _ _ => 42) "q" "f" [] [(bypassKey, 1)]
      ()).2 (by decide)⟩

/-- C3 counterexample: against a store whose lookup raises something other
than `KeyError`, a call of the wrapper (caching enabled, no bypass, wrapped
function returning `7`) propagates the failure as an exception instead of
degrading to direct execution — the result is `Except.error "disk
unreachable"`, not `Except.ok` with the value `7` that the claim requires. -/
theorem memoize_on_disk_store_failure_counterexample :
    memoize_on_disk_wrapper (badStore Nat Nat Nat) true
      (fun w => decide (w ≠ 0)) (fun _ _ => 7) "q" "f" [] [] () =
      .error "disk unreachable" := by
  rfl

/-- C3 (amended): only the key-absent (`KeyError`) outcome of the lookup
leads to executing the wrapped function; any other lookup failure
propagates to the caller without executing it, and a failure raised while
storing the freshly computed result also propagates — the wrapper never
degrades to uncached direct execution on store failure. -/
theorem memoize_on_disk_store_failure_propagates {A W V S : Type}
    (M : StoreOps (CacheKey A W) V S) (truthy : W → Bool)
    (f : List A → List (String × W) → V) (qualname fname : String)
    (args : List A) (kwargs : List (String × W)) (s : S)
    (hbp : (match kwLookup kwargs bypassKey with
      | some w => truthy w
      | none => false) = false) :
    (∀ e, M.lookup s (qualname, fname, args, kwRemove kwargs bypassKey) =
        .storeError e →
      memoize_on_disk_wrapper M true truthy f qualname fname args kwargs s =
        .error e) ∧
    (∀ e, M.lookup s (qualname, fname, args, kwRemove kwargs bypassKey) =
        .keyAbsent →
      M.store_if_not_present s
        (qualname, fname, args, kwRemove kwargs bypassKey)
        (f args (kwRemove kwargs bypassKey)) = .error e →
      memoize_on_disk_wrapper M true truthy f qualname fname args kwargs s =
        .error e) := by
  constructor
  · intro e hle
    rw [memoize_wrapper_nobypass_eq M truthy f qualname fname args kwargs s
      hbp, hle]
  · intro e hla hse
    rw [memoize_wrapper_nobypass_eq M truthy f qualname fname args kwargs s
      hbp, hla, hse]

theorem memoize_on_disk_store_failure_witness :
    memoize_on_disk_wrapper (badStore Nat Nat Nat) true
      (fun w => decide (w ≠ 0)) (fun _ _ => 7) "q" "f" [] [] () =
      .error "disk unreachable" :=
  (memoize_on_disk_store_failure_propagates (badStore Nat Nat Nat)
      (fun w => decide (w ≠ 0)) (fun _ _ => 7) "q" "f" [] [] () rfl).1
    "disk unreachable" rfl

/- ## Equality key builder (`loopy.tools.LoopyEqKeyBuilder`)

`key()` returns `(class_.__name__.encode("utf-8"), field_dict)`; the UTF-8
encoding of the class name is injective, so it is modelled by the name
string itself.  The Python `dict` compares by contents irrespective of
insertion order, which is exactly `Finmap`.  `hash_key()` feeds
`(name, values sorted by field name)` through a `LoopyKeyBuilder` — a
`pytools` `KeyBuilder`, an external collaborator — abstracted here as an
arbitrary digest function `H`; the `@memoize_method` caching of `hash_key`
does not affect its value. -/

/-- A Python class object: its identity distinguishes same-named classes
from different modules, while `cls.__name__` is only the `name` part. -/
structure PyClass where
  module : String
  name : String
deriving DecidableEq

/-- State of a `LoopyEqKeyBuilder` after `update_for_class` and any number
of `update_for_field` calls. -/
structure LoopyEqKeyBuilder (V : Type) where
  class_ : PyClass
  field_dict : Finmap (fun _ : String => V)

namespace LoopyEqKeyBuilder

/-- `update_for_field`: `self.field_dict[field_name] = value`. -/
def update_for_field {V : Type} (b : LoopyEqKeyBuilder V)
    (field_name : String) (value : V) : LoopyEqKeyBuilder V :=
  { b with field_dict := b.field_dict.insert field_name value }

/-- `update_for_class`: `self.class_ = class_`. -/
def update_for_class {V : Type} (b : LoopyEqKeyBuilder V)
    (c : PyClass) : LoopyEqKeyBuilder V :=
  { b with class_ := c }

/-- `key()`: `(self.class_.__name__.encode("utf-8"), self.field_dict)`. -/
def key {V : Type} (b : LoopyEqKeyBuilder V) :
    String × Finmap (fun _ : String => V) :=
  (b.class_.name, b.field_dict)

/-- `hash_key()`: the digest of the class tag followed by the field values
in sorted-by-field-name order; the field names themselves are not part of
the hashed payload. -/
def hash_key {V D : Type} (H : String × List (Option V) → D)
    (b : LoopyEqKeyBuilder V) : D :=
  H (b.class_.name,
     (b.field_dict.keys.sort (· ≤ ·)).map (fun k => b.field_dict.lookup k))

end LoopyEqKeyBuilder

/-- Two builders recording same-named classes from different modules, with
empty field sets. -/
def exBuilderA : LoopyEqKeyBuilder Nat := ⟨⟨"module_one", "SameName"⟩, ∅⟩

/-- Same class name as `exBuilderA` but a different class identity. -/
def exBuilderB : LoopyEqKeyBuilder Nat := ⟨⟨"module_two", "SameName"⟩, ∅⟩

/-- C4 counterexample: two builders whose recorded classes are distinct
(different modules) but share `__name__` produce equal `key()` values, so
equal keys do not imply matching class identities. -/
theorem eq_key_builder_class_identity_counterexample :
    exBuilderA.key = exBuilderB.key ∧ exBuilderA.class_ ≠ exBuilderB.class_ :=
  ⟨rfl, by decide⟩

/-- C4 (amended): two builders' `key()` values compare equal if and only if
the recorded classes' *names* match and the declared fields compare equal
pairwise (same field names, pairwise-equal values, irrespective of
insertion order).  Class identity is not part of the key — only
`__name__` enters it (see the counterexample). -/
theorem eq_key_builder_key_eq_iff {V : Type} (a b : LoopyEqKeyBuilder V) :
    a.key = b.key ↔
      (a.class_.name = b.class_.name ∧
       ∀ k, a.field_dict.lookup k = b.field_dict.lookup k) := by
  unfold LoopyEqKeyBuilder.key
  rw [Prod.mk.injEq]
  constructor
  · rintro ⟨h1, h2⟩
    exact ⟨h1, fun k => by rw [h2]⟩
  · rintro ⟨h1, h2⟩
    exact ⟨h1, Finmap.ext_lookup h2⟩

/-- C6: equal equality keys yield equal hash digests, for every digest
function `H` (the converse need not hold, e.g. for a constant `H`):
`hash_key` is a function of exactly the data `key` determines — the class
tag and the field values sorted by field name, names excluded from the
payload. -/
theorem eq_key_builder_key_determines_hash_key {V D : Type}
    (H : String × List (Option V) → D) (a b : LoopyEqKeyBuilder V)
    (h : a.key = b.key) : a.hash_key H = b.hash_key H := by
  unfold LoopyEqKeyBuilder.key at h
  rw [Prod.mk.injEq] at h
  unfold LoopyEqKeyBuilder.hash_key
  rw [h.1, h.2]

theorem eq_key_builder_key_determines_hash_key_witness :
    exBuilderA.hash_key (fun p => p.2.length) =
      exBuilderB.hash_key (fun p => p.2.length) :=
  eq_key_builder_key_determines_hash_key (fun p => p.2.length)
    exBuilderA exBuilderB rfl

/- ## Lazily unpickling containers

A slot of `LazilyUnpicklingDict._map` / `LazilyUnpicklingList._list` holds
either a `_PickledObject` (still-serialized bytes) or an already
materialized value.  The serialization codec is deterministic and
round-trips, so serialized bytes are represented by the value
`unpickle` decodes them to.  `__getitem__` is embedded with explicit state
passing, returning the value, the updated container, and the number of
`unpickle` calls performed. -/

/-- `Serialized(bytes) | Materialized(value)`. -/
inductive LazySlot (V : Type)
  | pickled (v : V)
  | plain (v : V)
deriving DecidableEq

/-- `LazilyUnpicklingDict.__getitem__`: a `_PickledObject` slot is
unpickled and the materialized value stored back in place. -/
def lazyDictGet {K V : Type} [DecidableEq K]
    (m : K → Option (LazySlot V)) (k : K) :
    Except String (V × (K → Option (LazySlot V)) × Nat) :=
  match m k with
  | none => .error "KeyError"
  | some (.pickled v) => .ok (v, pset m k (.plain v), 1)
  | some (.plain v) => .ok (v, m, 0)

/-- `LazilyUnpicklingList.__getitem__` at a (non-negative, in-range)
index. -/
def lazyListGet {V : Type} (l : List (LazySlot V)) (i : Nat) :
    Except String (V × List (LazySlot V) × Nat) :=
  match l[i]? with
  | none => .error "IndexError"
  | some (.pickled v) => .ok (v, l.set i (.plain v), 1)
  | some (.plain v) => .ok (v, l, 0)

/-- C7: for a dict key (resp. list index) holding a serialized slot, the
first read unpickles exactly once and stores the materialized value back
into the slot; the second read (and, since it leaves the state fixed, every
subsequent one) returns the same materialized value with zero unpickle
calls and no state change. -/
theorem lazy_containers_materialize_once {K V : Type} [DecidableEq K]
    (m : K → Option (LazySlot V)) (k : K) (v : V)
    (hm : m k = some (.pickled v))
    (l : List (LazySlot V)) (i : Nat) (w : V)
    (hl : l[i]? = some (.pickled w)) :
    (lazyDictGet m k = .ok (v, pset m k (.plain v), 1) ∧
     lazyDictGet (pset m k (.plain v)) k =
       .ok (v, pset m k (.plain v), 0)) ∧
    (lazyListGet l i = .ok (w, l.set i (.plain w), 1) ∧
     lazyListGet (l.set i (.plain w)) i =
       .ok (w, l.set i (.plain w), 0)) := by
  have hi : i < l.length := by
    rcases List.getElem?_eq_some.mp hl with ⟨h, -⟩
    exact h
  have hset : (l.set i (LazySlot.plain w))[i]? = some (.plain w) :=
    List.getElem?_set_eq_of_lt _ hi
  refine ⟨⟨?_, ?_⟩, ?_, ?_⟩
  · unfold lazyDictGet
    rw [hm]
  · unfold lazyDictGet
    rw [pset_same]
  · unfold lazyListGet
    rw [hl]
  · unfold lazyListGet
    rw [hset]

theorem lazy_containers_materialize_once_witness :
    (lazyDictGet (pset (fun _ : Nat => none) 0 (LazySlot.pickled 7)) 0 =
       .ok (7, pset (pset (fun _ : Nat => none) 0 (LazySlot.pickled 7)) 0
         (.plain 7), 1) ∧
     lazyDictGet (pset (pset (fun _ : Nat => none) 0 (LazySlot.pickled 7)) 0
       (.plain 7)) 0 =
       .ok (7, pset (pset (fun _ : Nat => none) 0 (LazySlot.pickled 7)) 0
         (.plain 7), 0)) ∧
    (lazyListGet [LazySlot.pickled 9] 0 =
       .ok (9, [LazySlot.pickled 9].set 0 (.plain 9), 1) ∧
     lazyListGet ([LazySlot.pickled 9].set 0 (.plain 9)) 0 =
       .ok (9, [LazySlot.pickled 9].set 0 (.plain 9), 0)) :=
  lazy_containers_materialize_once
    (pset (fun _ : Nat => none) 0 (LazySlot.pickled 7)) 0 7 (by decide)
    [LazySlot.pickled 9] 0 9 rfl

/- ## `LazilyUnpicklingListWithEqAndPersistentHashing.__eq__` -/

/-- A slot of the augmented lazy list: a plain value, or a
`_PickledObjectWithEqAndPersistentHashKeys` carrying the stored equality
key computed from the original value at serialization time. -/
inductive EqSlot (V K : Type)
  | plain (v : V)
  | pickledWithKeys (v : V) (eqKey : K)
deriving DecidableEq

/-- `_get_eq_key`: the stored key for a pickled-with-keys slot, otherwise
`eq_key_getter` applied to the value. -/
def get_eq_key {V K : Type} (eq_key_getter : V → K) : EqSlot V K → K
  | .pickledWithKeys _ k => k
  | .plain v => eq_key_getter v

/-- The value a slot materializes to. -/
def materializeSlot {V K : Type} : EqSlot V K → V
  | .plain v => v
  | .pickledWithKeys v _ => v

/-- `__eq__` for two list-shaped operands (a plain Python list is the
special case in which every slot is `plain`): unequal lengths give `False`,
otherwise the elements' equality keys are compared pairwise in order. -/
def lazyListWithEqBeq {V K : Type} [DecidableEq K] (eq_key_getter : V → K)
    (xs ys : List (EqSlot V K)) : Bool :=
  if xs.length ≠ ys.length then false
  else (xs.zip ys).all fun ab =>
    decide (get_eq_key eq_key_getter ab.1 = get_eq_key eq_key_getter ab.2)

/-- The constructor contract: every stored `eq_key` equals the getter
applied to the value the slot materializes to. -/
def storedKeysConsistent {V K : Type} [DecidableEq K] (g : V → K)
    (l : List (EqSlot V K)) : Bool :=
  l.all fun s =>
    match s with
    | .pickledWithKeys v k => decide (k = g v)
    | .plain _ => true

theorem storedKeysConsistent_spec {V K : Type} [DecidableEq K] (g : V → K)
    (l : List (EqSlot V K)) (h : storedKeysConsistent g l = true) :
    ∀ v k, EqSlot.pickledWithKeys v k ∈ l → k = g v := by
  intro v k hm
  have h2 := List.all_eq_true.mp h _ hm
  simpa using h2

/-- C5: under the documented constructor contract — the equality-key getter
stands in for equality (injective) and stored keys agree with the
serialized values — the `__eq__` of two augmented lazy lists (or one such
list and a plain list, i.e. all slots `plain`) returns unequal on length
mismatch, otherwise compares equality keys pairwise in order, and its
verdict coincides with equality of the fully materialized plain sequences,
whatever mixture of serialized and materialized slots the operands are
in. -/
theorem lazy_eq_list_refines_plain_eq {V K : Type} [DecidableEq K]
    (g : V → K) (hinj : Function.Injective g) (xs ys : List (EqSlot V K))
    (hx : storedKeysConsistent g xs = true)
    (hy : storedKeysConsistent g ys = true) :
    (lazyListWithEqBeq g xs ys = true ↔
      xs.map materializeSlot = ys.map materializeSlot) ∧
    (xs.length ≠ ys.length → lazyListWithEqBeq g xs ys = false) := by
  have main : ∀ (as bs : List (EqSlot V K)),
      storedKeysConsistent g as = true → storedKeysConsistent g bs = true →
      (lazyListWithEqBeq g as bs = true ↔
        as.map materializeSlot = bs.map materializeSlot) := by
    intro as
    induction as with
    | nil =>
      intro bs _ _
      cases bs with
      | nil => simp [lazyListWithEqBeq]
      | cons b bs => simp [lazyListWithEqBeq]
    | cons a as ih =>
      intro bs hxa hxb
      cases bs with
      | nil => simp [lazyListWithEqBeq]
      | cons b bs =>
        have hxa1 : storedKeysConsistent g as = true := by
          unfold storedKeysConsistent at hxa ⊢
          rw [List.all_cons, Bool.and_eq_true] at hxa
          exact hxa.2
        have hxb1 : storedKeysConsistent g bs = true := by
          unfold storedKeysConsistent at hxb ⊢
          rw [List.all_cons, Bool.and_eq_true] at hxb
          exact hxb.2
        have hkeya : get_eq_key g a = g (materializeSlot a) := by
          cases a with
          | plain v => rfl
          | pickledWithKeys v k =>
            exact storedKeysConsistent_spec g _ hxa v k
              (List.mem_cons_self _ _)
        have hkeyb : get_eq_key g b = g (materializeSlot b) := by
          cases b with
          | plain v => rfl
          | pickledWithKeys v k =>
            exact storedKeysConsistent_spec g _ hxb v k
              (List.mem_cons_self _ _)
        by_cases hlen : as.length = bs.length
        · have hc1 : ¬ (a :: as).length ≠ (b :: bs).length := by
            simp [hlen]
          have hc2 : ¬ as.length ≠ bs.length := by simp [hlen]
          unfold lazyListWithEqBeq
          rw [if_neg hc1, List.zip_cons_cons, List.all_cons,
            Bool.and_eq_true, decide_eq_true_eq]
          have htail := ih bs hxa1 hxb1
          unfold lazyListWithEqBeq at htail
          rw [if_neg hc2] at htail
          rw [List.map_cons, List.map_cons, List.cons_eq_cons, htail,
            hkeya, hkeyb]
          constructor
          · rintro ⟨h1, h2⟩
            exact ⟨hinj h1, h2⟩
          · rintro ⟨h1, h2⟩
            exact ⟨congrArg g h1, h2⟩
        · have hc1 : (a :: as).length ≠ (b :: bs).length := by
            simp [hlen]
          unfold lazyListWithEqBeq
          rw [if_pos hc1]
          constructor
          · intro h
            exact absurd h (by simp)
          · intro h
            have hql := congrArg List.length h
            rw [List.length_map, List.length_map] at hql
            exact absurd hql hc1
  refine ⟨main xs ys hx hy, ?_⟩
  intro hlen
  unfold lazyListWithEqBeq
  rw [if_pos hlen]

theorem lazy_eq_list_refines_plain_eq_witness :
    (lazyListWithEqBeq (fun v : Nat => v)
        [EqSlot.pickledWithKeys 5 5, EqSlot.plain 6]
        [EqSlot.plain 5, EqSlot.pickledWithKeys 6 6] = true ↔
      [EqSlot.pickledWithKeys 5 5, EqSlot.plain 6].map materializeSlot =
        [EqSlot.plain 5, EqSlot.pickledWithKeys 6 6].map materializeSlot) ∧
    ([EqSlot.pickledWithKeys 5 5, EqSlot.plain 6].length ≠
        [EqSlot.plain 5, EqSlot.pickledWithKeys 6 6].length →
      lazyListWithEqBeq (fun v : Nat => v)
        [EqSlot.pickledWithKeys 5 5, EqSlot.plain 6]
        [EqSlot.plain 5, EqSlot.pickledWithKeys 6 6] = false) :=
  lazy_eq_list_refines_plain_eq (fun v => v) (fun a b h => h)
    [EqSlot.pickledWithKeys 5 5, EqSlot.plain 6]
    [EqSlot.plain 5, EqSlot.pickledWithKeys 6 6] (by decide) (by decide)

/- ## `loopy.tools.Optional` -/

/-- `Optional()` or `Optional(v)`. -/
inductive PyOptional (V : Type)
  | empty
  | val (v : V)

/-- The `has_value` attribute an `Optional` instance carries. -/
def PyOptional.has_value {V : Type} : PyOptional V → Bool
  | .empty => false
  | .val _ => true

/-- A duck-typed right operand of `Optional.__eq__`: each attribute may be
present or absent, and accessing an absent attribute raises
`AttributeError`.  The `has_value` attribute is modelled by the truth value
its lookup would have. -/
structure DuckObj (V : Type) where
  has_value : Option Bool
  value : Option V

/-- `Optional.__eq__`: both branches read `other.has_value` before
returning (Python evaluates the condition of a conditional expression
first), and the operand's type is never checked; `other.value` is read
only when `other.has_value` is truthy. -/
def optionalEq {V : Type} [DecidableEq V] (o : PyOptional V)
    (x : DuckObj V) : Except String Bool :=
  match o with
  | .empty =>
    match x.has_value with
    | none => .error "AttributeError"
    | some hv => .ok (!hv)
  | .val v =>
    match x.has_value with
    | none => .error "AttributeError"
    | some hv =>
      if hv then
        match x.value with
        | none => .error "AttributeError"
        | some xv => .ok (decide (v = xv))
      else .ok false

/-- C10: `Optional.__eq__` accesses the other operand's `has_value`
attribute unconditionally and never checks its type, so comparing an
`Optional` (empty or not) with any object lacking a `has_value` attribute
raises `AttributeError` instead of returning `False` or
`NotImplemented`. -/
theorem optional_eq_missing_attribute_raises {V : Type} [DecidableEq V]
    (o : PyOptional V) (x : DuckObj V) (h : x.has_value = none) :
    optionalEq o x = .error "AttributeError" := by
  cases o <;> unfold optionalEq <;> rw [h]

theorem optional_eq_missing_attribute_raises_witness :
    optionalEq (PyOptional.empty : PyOptional Nat) ⟨none, some 3⟩ =
      .error "AttributeError" ∧
    optionalEq (PyOptional.val (5 : Nat)) ⟨none, none⟩ =
      .error "AttributeError" :=
  ⟨optional_eq_missing_attribute_raises PyOptional.empty ⟨none, some 3⟩ rfl,
   optional_eq_missing_attribute_raises (PyOptional.val 5) ⟨none, none⟩ rfl⟩

end LoopyTools
